import Mathlib

/-!
Verification of the reapack-indexer core algorithms against a shallow
embedding of the Rust sources (`src/version.rs`, `src/repo.rs`,
`src/config.rs`).  Strings are modelled as `List Char` (Rust `&str`
compares by UTF-8 bytes, which coincides with code-point order, so
character lists with code-point comparison are a faithful model).
-/

namespace Reapack

/-! ## Version name comparison (`Version::compare_version_names`, `find_latest_version`)

The Rust code splits both version names on `'.'` and walks the two segment
sequences with `zip_longest`: while both sides have a segment the segments are
compared as strings (byte-lexicographic); the first non-equal segment decides;
if one side runs out, the longer side is greater.  Plain string comparison has
the same recursive shape (first differing character decides, the longer string
wins on a shared prefix), so both levels are instances of one generic
`lexCompare` over a segment/character comparator. -/

/-- Comparison of natural numbers as an `Ordering`, used to model comparison
of Unicode code points of `char`s. -/
def natCmp (a b : Nat) : Ordering :=
  if a < b then .lt else if b < a then .gt else .eq

/-- Rust `char`/byte comparison: compare the code points. -/
def charCmp (a b : Char) : Ordering :=
  natCmp a.toNat b.toNat

/-- Generic lexicographic comparison of two lists given a comparator for the
elements: the first non-equal element decides; if all shared elements are
equal, the longer list is greater.  This is the shape of both Rust `str`
comparison (over bytes) and of `Version::compare_version_names` /
`find_latest_version` (over dot-separated segments, via `zip_longest`). -/
def lexCompare (cmp : α → α → Ordering) : List α → List α → Ordering
  | [], [] => .eq
  | _ :: _, [] => .gt
  | [], _ :: _ => .lt
  | a :: as, b :: bs =>
    match cmp a b with
    | .eq => lexCompare cmp as bs
    | o => o

/-- Rust `str::split('.')`: splits a character list on `'.'`, keeping empty
segments (splitting the empty string yields one empty segment). -/
def splitOnDot : List Char → List (List Char)
  | [] => [[]]
  | c :: rest =>
    if c = '.' then [] :: splitOnDot rest
    else
      match splitOnDot rest with
      | s :: ss => (c :: s) :: ss
      | [] => [[c]]

/-- Model of Rust `str` comparison (`partial_cmp` on `&str`, which is total):
byte-lexicographic, here code-point lexicographic on the characters. -/
def strCmp (a b : List Char) : Ordering :=
  lexCompare charCmp a b

/-- Model of `Version::compare_version_names` (src/repo.rs lines 529-547) and
of the comparator inside `find_latest_version` (src/version.rs lines 37-60):
split both names on `'.'`, then compare the segment lists lexicographically
with string comparison on the segments, the longer segment list winning on a
shared prefix. -/
def compare_version_names (a b : List Char) : Ordering :=
  lexCompare strCmp (splitOnDot a) (splitOnDot b)

/-! ## Version increment (`increment_version`, src/version.rs lines 8-35 and
`Version::increment_version`, src/repo.rs lines 549-576; both are verbatim
copies of one another) -/

/-- Value of an ASCII digit character. -/
def digitVal (c : Char) : Nat := c.toNat - 48

/-- Decimal value of a digit run, as computed by Rust `str::parse::<u32>`
on a string of ASCII digits (which only fails by overflowing `u32`). -/
def parseDigits (l : List Char) : Nat :=
  l.foldl (fun a c => 10 * a + digitVal c) 0

/-- Largest value representable in Rust `u32`. -/
def U32_MAX : Nat := 4294967295

/-- Outcome of `increment_version`.  `panic` models the Rust `panic!` raised
by `suffix.parse::<u32>().unwrap()` when the digit run overflows `u32`. -/
inductive IncrementResult
  | ok (s : List Char)
  | unknownVersionFormat (s : List Char)
  | panic
  deriving DecidableEq, Repr

/-- Model of `increment_version` (src/version.rs lines 8-35): take the maximal
trailing run of ASCII digits (built by walking the reversed string); if it is
empty fail with `UnknownVersionFormat`; otherwise parse it as a `u32` —
`.unwrap()` panics when the run's value exceeds `u32::MAX` — add one (the
addition wraps in release builds, which only matters at exactly `u32::MAX`;
no theorem below depends on that point) and append the decimal rendering to
the untouched non-digit part of the string. -/
def increment_version (text : List Char) : IncrementResult :=
  let suffix := (text.reverse.takeWhile Char.isDigit).reverse
  if suffix.isEmpty then
    .unknownVersionFormat text
  else if parseDigits suffix ≤ U32_MAX then
    .ok (text.take (text.length - suffix.length) ++
      Nat.toDigits 10 ((parseDigits suffix + 1) % (U32_MAX + 1)))
  else
    .panic

/-! ## CDATA escaping (`cdata`, src/repo.rs lines 105-122) -/

/-- Rust `str::split("]]>")`: split a character list on non-overlapping
occurrences of the three-character sequence `]]>`, leftmost-first. -/
def splitOnCdataEnd : List Char → List (List Char)
  | ']' :: ']' :: '>' :: rest => [] :: splitOnCdataEnd rest
  | c :: rest =>
    match splitOnCdataEnd rest with
    | s :: ss => (c :: s) :: ss
    | [] => [[c]]
  | [] => [[]]

/-- Whether the character list contains the sequence `]]>`. -/
def hasCdataEnd : List Char → Bool
  | ']' :: ']' :: '>' :: _ => true
  | _ :: rest => hasCdataEnd rest
  | [] => false

/-- Separator inserted between split parts by `cdata`: it closes the current
CDATA section after the two `]]` and opens a new one before the `>`. -/
def cdataSep : List Char := "]]]]><![CDATA[>".data

/-- Model of `cdata` (src/repo.rs lines 105-122): wrap the text in
`<![CDATA[` … `]]>`, splitting on any embedded `]]>` and joining the parts
with `]]]]><![CDATA[>` (the loop appends the first part verbatim and prefixes
every later part with the separator, i.e. an intercalation). -/
def cdata (text : List Char) : List Char :=
  "<![CDATA[".data ++ List.intercalate cdataSep (splitOnCdataEnd text) ++ "]]>".data

/-! ## Glob matching (`build_entrypoints`, src/repo.rs lines 163-178)

`build_entrypoints` compiles each pattern with
`GlobBuilder::new(pattern).literal_separator(true)` and collects each
section's patterns into one `GlobSet`.  The `globset` crate is an external
dependency, so its matcher is modelled from the spec. -/

/-- Token of a glob pattern: a literal character, or a `*` wildcard. -/
inductive GlobToken
  | lit (c : Char)
  | star
  deriving DecidableEq, Repr

/-- Modelled from the spec: parsing of a glob pattern as compiled by the
external `globset` crate — `*` is a wildcard, every other character matches
itself.  The claims only exercise `*` and literal characters; the crate's
further syntax (`?`, character classes, `**`) is outside the modelled
fragment. -/
def parseGlob (pattern : List Char) : List GlobToken :=
  pattern.map (fun c => if c = '*' then .star else .lit c)

/-- Modelled from the spec: glob matching with `literal_separator(true)` — a
bare `*` matches any run of characters not containing `/`, a literal matches
exactly itself, and the whole pattern must cover the whole path.  The fuel
argument only bounds the recursion depth; every recursive call shrinks
`pattern.length + path.length`, so the initial budget of
`pattern.length + path.length + 1` supplied by `globMatch` is never
exhausted. -/
def globMatchFuel : Nat → List GlobToken → List Char → Bool
  | 0, _, _ => false
  | _ + 1, [], [] => true
  | _ + 1, [], _ :: _ => false
  | _ + 1, .lit _ :: _, [] => false
  | f + 1, .lit c :: ps, d :: ds => c = d && globMatchFuel f ps ds
  | f + 1, .star :: ps, [] => globMatchFuel f ps []
  | f + 1, .star :: ps, d :: ds =>
    globMatchFuel f ps (d :: ds) || (!(d = '/' : Bool) && globMatchFuel f (.star :: ps) ds)

/-- Whether a compiled glob pattern matches a path (literal-separator
semantics). -/
def globMatch (pattern : List GlobToken) (path : List Char) : Bool :=
  globMatchFuel (pattern.length + path.length + 1) pattern path

/-! ## Percent-encoding (`url_encode_path`, src/repo.rs lines 124-135) -/

/-- Model of `RelativePath::components`: split on `/`, dropping empty and `.`
components (used by `normalize` below). -/
def splitOnSlash : List Char → List (List Char)
  | [] => [[]]
  | c :: rest =>
    if c = '/' then [] :: splitOnSlash rest
    else
      match splitOnSlash rest with
      | s :: ss => (c :: s) :: ss
      | [] => [[c]]

/-- Logical normalization step of the `relative_path` crate: `.` components
are dropped (already removed by `relComponents`), a `..` pops a preceding
normal component and is otherwise kept. -/
def normalizeComponents (comps : List (List Char)) : List (List Char) :=
  comps.foldl
    (fun acc c =>
      if c = "..".data then
        match acc.getLast? with
        | some last => if last = "..".data then acc ++ [c] else acc.dropLast
        | none => acc ++ [c]
      else acc ++ [c])
    []

/-- Model of `RelativePath::normalize` from the external `relative_path`
crate: resolve `.` and `..` components logically and re-join with `/`. -/
def normalizeRelPath (path : List Char) : List Char :=
  List.intercalate ['/']
    (normalizeComponents
      ((splitOnSlash path).filter (fun c => ¬(c = [] ∨ c = ['.']))))

/-- UTF-8 encoding of one character, as the list of its byte values. -/
def utf8Bytes (c : Char) : List Nat :=
  let n := c.toNat
  if n < 0x80 then [n]
  else if n < 0x800 then [0xC0 + n / 64, 0x80 + n % 64]
  else if n < 0x10000 then [0xE0 + n / 4096, 0x80 + n / 64 % 64, 0x80 + n % 64]
  else [0xF0 + n / 262144, 0x80 + n / 4096 % 64, 0x80 + n / 64 % 64, 0x80 + n % 64]

/-- Whether a byte is emitted verbatim by `url_encode_path`: the encode set is
`NON_ALPHANUMERIC` minus `/`, `.`, `-`, `_` (src/repo.rs lines 129-133), and
the `percent_encoding` crate always encodes non-ASCII bytes. -/
def unescapedByte (b : Nat) : Bool :=
  (48 ≤ b && b ≤ 57) || (65 ≤ b && b ≤ 90) || (97 ≤ b && b ≤ 122) ||
    (b = 47 || b = 46 || b = 45 || b = 95)

/-- Uppercase hexadecimal digit, as output by the `percent_encoding` crate. -/
def hexDigitChar (n : Nat) : Char :=
  if n < 10 then Char.ofNat (48 + n) else Char.ofNat (55 + n)

/-- Percent-encoding of a single byte: kept verbatim when outside the encode
set, otherwise rendered as `%XX` with uppercase hexadecimal. -/
def percentEncodeByte (b : Nat) : List Char :=
  if unescapedByte b then [Char.ofNat b]
  else ['%', hexDigitChar (b / 16), hexDigitChar (b % 16)]

/-- Percent-encoding of a character list: encode to UTF-8 bytes and
percent-encode each byte (model of `utf8_percent_encode` with the `FRAGMENT`
set of src/repo.rs). -/
def percentEncodeChars (l : List Char) : List Char :=
  (l.flatMap utf8Bytes).flatMap percentEncodeByte

/-- Model of `url_encode_path` (src/repo.rs lines 124-135): normalize the
relative path, then percent-encode it leaving ASCII alphanumerics and
`/ . - _` unescaped. -/
def url_encode_path (path : List Char) : List Char :=
  percentEncodeChars (normalizeRelPath path)

/-! ## URL templates (`Source::url` and `UrlTemplateValueProvider`,
src/repo.rs lines 716-781)

The template engine itself is the external `leon` crate: a pattern is a
sequence of literal runs and `{key}` placeholders; rendering substitutes each
key's value and fails on the first key without a value, naming it. -/

/-- Segment of a parsed URL template: a literal character run or a `{key}`
placeholder. -/
inductive TemplateSeg
  | text (s : List Char)
  | key (k : List Char)
  deriving DecidableEq, Repr

/-- Modelled from the spec: parser for the external `leon` template engine.
The first argument is `none` while scanning literal text and `some acc`
(characters collected so far, reversed) while inside a `{` … `}` placeholder;
an unterminated placeholder is a parse error.  Literal runs are produced one
character at a time, which renders identically to the crate's coalesced
runs. -/
def parseTemplateAux : Option (List Char) → List Char → Option (List TemplateSeg)
  | none, [] => some []
  | none, '{' :: rest => parseTemplateAux (some []) rest
  | none, c :: rest => (parseTemplateAux none rest).map (fun segs => .text [c] :: segs)
  | some _, [] => none
  | some acc, '}' :: rest =>
    (parseTemplateAux none rest).map (fun segs => .key acc.reverse :: segs)
  | some acc, c :: rest => parseTemplateAux (some (c :: acc)) rest

/-- Parse a URL template pattern into segments (`Template::parse`). -/
def parseTemplate (pattern : List Char) : Option (List TemplateSeg) :=
  parseTemplateAux none pattern

/-- The placeholder keys of a parsed template, in order. -/
def segKeys (segs : List TemplateSeg) : List (List Char) :=
  segs.filterMap (fun s => match s with | .key k => some k | .text _ => none)

/-! ## Data model (src/config.rs, src/repo.rs)

Discovery (`Repository::read`, `discover_packages`, `discover_versions`,
`discover_sources`) is file-system I/O; the structures below model the graph
it produces.  A `Source`'s two relative paths model
`path.relative_to(ver.path())` and `path.relative_to(repo.path())`, which the
code unwraps — both are defined because sources are discovered by walking the
version directory. -/

/-- The closed set of package kinds (src/config.rs lines 10-23). -/
inductive PackageType
  | script
  | extension
  | effect
  | data
  | theme
  | langPack
  | webInterface
  | projectTemplate
  | trackTemplate
  | midiNoteNames
  | automationItem
  deriving DecidableEq, Repr

/-- The closed set of action-list UI sections (src/config.rs lines 89-96). -/
inductive ActionListSection
  | mainSection
  | midiEditorSection
  | midiInlineEditorSection
  | midiEventListEditorSection
  | mediaExplorerSection
  deriving DecidableEq, Repr

/-- A raw entrypoint pattern map as it appears in a package or version config:
glob pattern strings per section (`HashMap<ActionListSection, Vec<String>>`,
modelled as an association list). -/
abbrev RawEntrypoints := List (ActionListSection × List (List Char))

/-- A compiled entrypoint map: one compiled glob set per section
(`HashMap<ActionListSection, GlobSet>`). -/
abbrev Entrypoints := List (ActionListSection × List (List GlobToken))

/-- Model of `build_entrypoints` (src/repo.rs lines 163-178): compile every
pattern of every section with literal separators. -/
def build_entrypoints (m : RawEntrypoints) : Entrypoints :=
  m.map (fun se => (se.1, se.2.map parseGlob))

/-- A source file of a version (`Source`, src/repo.rs lines 744-763), by its
path relative to the version directory and relative to the repository root
(forward slashes, no leading `./`). -/
structure Source where
  relpathFromVersion : List Char
  relpathFromRepo : List Char
  deriving DecidableEq, Repr

/-- A package version (`Version`, src/repo.rs lines 518-523).  `name` models
`Version::name()` (the directory's file name); `sources` models the result of
`discover_sources` on the version directory (empty when no file was found);
`changelog` models the optional `CHANGELOG.txt` contents. -/
structure Version where
  path : List Char
  name : List Char
  timeRfc3339 : List Char
  configEntrypoints : Option RawEntrypoints
  changelog : Option (List Char)
  sources : List Source
  deriving Repr

/-- A package (`Package`, src/repo.rs lines 341-346).  `identifier` and
`name` model the fallback-resolved accessors, `category` the raw config
path. -/
structure Package where
  path : List Char
  identifier : List Char
  name : List Char
  category : List Char
  pkgType : PackageType
  author : Option (List Char)
  configEntrypoints : Option RawEntrypoints
  deriving Repr

/-- A repository (`Repository`, src/repo.rs lines 180-186).  `gitHash` models
the lazily computed `git_hash` cell: `some` when `git rev-parse HEAD`
succeeds, `none` when it fails. -/
structure Repository where
  path : List Char
  identifier : List Char
  author : List Char
  urlPattern : List Char
  gitHash : Option (List Char)
  deriving Repr

deriving instance DecidableEq for Except

/-- The fatal errors of index generation that the claims exercise.
`categoryEscapesRepositoryRoot` models the `panic!` in
`Source::output_relpath_from_category` (src/repo.rs line 848), which aborts
with the offending category path. -/
inductive RepoError
  | noSourcesFound (path : List Char)
  | entrypointsOnlyAllowedInScriptPackages (path : List Char)
  | noEntrypointsDefinedForScriptPackage (path : List Char)
  | noEntrypointsFoundForScriptPackage (path : List Char)
  | missingUrlVariable (key : List Char)
  | templateParse (pattern : List Char)
  | categoryEscapesRepositoryRoot (category : List Char)
  deriving DecidableEq, Repr

/-- Model of `Package::entrypoints` (src/repo.rs lines 405-412): compile the
package's own config map, if any (the `OnceCell` memoization is invisible in
a pure model; glob compilation errors do not arise in the modelled
fragment). -/
def Package.entrypoints (pkg : Package) : Option Entrypoints :=
  pkg.configEntrypoints.map build_entrypoints

/-- Model of `Version::entrypoints` (src/repo.rs lines 612-627): the version's
own compiled map when its config defines one, otherwise the package's. -/
def Version.entrypoints (ver : Version) (pkg : Package) : Option Entrypoints :=
  match ver.configEntrypoints with
  | some m => some (build_entrypoints m)
  | none => pkg.entrypoints

/-- Whether any pattern of the compiled glob set matches the path
(`GlobSet::matches(path)` returns the indices of the matching patterns and the
code only tests emptiness of that vector). -/
def globsetMatches (globs : List (List GlobToken)) (path : List Char) : Bool :=
  globs.any (fun g => globMatch g path)

/-- The sections whose glob set matches the path (the `filter_map` collecting
run of `Source::sections`, src/repo.rs lines 894-911). -/
def classify (e : Entrypoints) (path : List Char) : List ActionListSection :=
  e.filterMap (fun se => if globsetMatches se.2 path then some se.1 else none)

/-- Model of `Source::sections` (src/repo.rs lines 878-914): resolve the
effective entrypoint map; a `script` package must have one with at least one
non-empty pattern list, a non-`script` package must not have any non-empty
pattern list; then classify the source's version-relative path against the
map. -/
def Source.sections (src : Source) (pkg : Package) (ver : Version) :
    Except RepoError (List ActionListSection) :=
  let entrypoints := ver.entrypoints pkg
  if pkg.pkgType = .script then
    match entrypoints with
    | none => .error (.noEntrypointsDefinedForScriptPackage pkg.path)
    | some e =>
      if e.all (fun se => se.2.isEmpty) then
        .error (.noEntrypointsDefinedForScriptPackage pkg.path)
      else
        .ok (classify e src.relpathFromVersion)
  else
    match entrypoints with
    | some e =>
      if e.any (fun se => !se.2.isEmpty) then
        .error (.entrypointsOnlyAllowedInScriptPackages pkg.path)
      else
        .ok (classify e src.relpathFromVersion)
    | none => .ok []

/-- Model of `UrlTemplateValueProvider::get_value` (src/repo.rs lines
723-742): `git_commit` is the repository's revision id when `git` succeeded
(`None` — a missing value — when it failed), `relpath` is the percent-encoded
repository-relative path of the source, and every other key has no value.
The provider's `pkg` and `ver` fields are never read. -/
def Source.getValue (src : Source) (repo : Repository) (key : List Char) :
    Option (List Char) :=
  if key = "git_commit".data then repo.gitHash
  else if key = "relpath".data then some (url_encode_path src.relpathFromRepo)
  else none

/-- Modelled from the spec: rendering of a parsed `leon` template.  Segments
are emitted left to right; the first placeholder whose key has no value
aborts the render with an unknown-variable error naming that key. -/
def renderSegs (vals : List Char → Option (List Char)) :
    List TemplateSeg → Except RepoError (List Char)
  | [] => .ok []
  | .text s :: rest => (renderSegs vals rest).map (fun r => s ++ r)
  | .key k :: rest =>
    match vals k with
    | none => .error (.missingUrlVariable k)
    | some v => (renderSegs vals rest).map (fun r => v ++ r)

/-- Model of `Source::url` (src/repo.rs lines 769-781): parse the
repository's URL pattern and render it with the value provider. -/
def Source.url (src : Source) (repo : Repository) : Except RepoError (List Char) :=
  match parseTemplate repo.urlPattern with
  | none => .error (.templateParse repo.urlPattern)
  | some segs => renderSegs (src.getValue repo) segs

/-- Join of two relative paths (`RelativePathBuf::join` / `push`): a `/` is
inserted between two non-empty sides. -/
def joinRel (a b : List Char) : List Char :=
  if a = [] then b else if b = [] then a else a ++ '/' :: b

/-- Model of `Source::output_relpath` (src/repo.rs lines 793-799): the
package identifier followed by the source's version-relative path. -/
def Source.output_relpath (src : Source) (pkg : Package) : List Char :=
  joinRel pkg.identifier src.relpathFromVersion

/-- A component of a relative path, as yielded by
`RelativePath::components`. -/
inductive PathComponent
  | curDir
  | parentDir
  | normal (s : List Char)
  deriving DecidableEq, Repr

/-- Model of `RelativePath::components` on the package category: split on
`/`, dropping empty components, and classify `.` and `..`. -/
def categoryComponents (category : List Char) : List PathComponent :=
  ((splitOnSlash category).filter (fun c => !c.isEmpty)).map
    (fun c =>
      if c = ['.'] then .curDir
      else if c = "..".data then .parentDir
      else .normal c)

/-- Model of `Source::output_relpath_from_category` (src/repo.rs lines
842-858): prepend one `..` segment per normal component of the package's
category, then the output path; a `..` component in the category is the
`panic!` at line 848, modelled as a fatal error carrying the offending
category. -/
def Source.output_relpath_from_category (src : Source) (pkg : Package) :
    Except RepoError (List Char) :=
  let comps := categoryComponents pkg.category
  if comps.any (fun c => c = .parentDir) then
    .error (.categoryEscapesRepositoryRoot pkg.category)
  else
    .ok (joinRel
      (List.intercalate ['/']
        (List.replicate (comps.countP (fun c => c matches .normal _)) "..".data))
      (src.output_relpath pkg))

/-- The rendered `source` XML element (src/repo.rs lines 860-876): its text
content (the URL), its `file` attribute and its `main` attribute (the
sections). -/
structure SourceElem where
  url : List Char
  file : List Char
  main : List ActionListSection
  deriving DecidableEq, Repr

/-- Model of `Source::element` (src/repo.rs lines 860-876), in the source's
evaluation order: render the URL, compute the `file` attribute (which panics
on a `..` category component), then classify the source. -/
def Source.element (src : Source) (repo : Repository) (pkg : Package)
    (ver : Version) : Except RepoError SourceElem := do
  let url ← src.url repo
  let file ← src.output_relpath_from_category pkg
  let main ← src.sections pkg ver
  .ok { url := url, file := file, main := main }

/-- Sequencing of a fallible computation over a list, as a Rust `for` loop
with `?` does: stop at the first error. -/
def mapExcept (f : α → Except ε β) : List α → Except ε (List β)
  | [] => .ok []
  | a :: as =>
    match f a with
    | .error e => .error e
    | .ok b =>
      match mapExcept f as with
      | .error e => .error e
      | .ok bs => .ok (b :: bs)

/-- The rendered `version` XML element (src/repo.rs lines 675-713). -/
structure VersionElem where
  name : List Char
  author : List Char
  timeRfc3339 : List Char
  changelog : Option (List Char)
  sources : List SourceElem
  deriving DecidableEq, Repr

/-- Model of `Version::element` (src/repo.rs lines 675-713): discovering the
sources fails with `NoSourcesFound` when the version directory holds no file;
each source is rendered in order (the first failing source aborts); finally,
for a `script` package, at least one source must have classified into at
least one section, otherwise `NoEntrypointsFoundForScriptPackage`. -/
def Version.element (ver : Version) (repo : Repository) (pkg : Package) :
    Except RepoError VersionElem :=
  if ver.sources.isEmpty then
    .error (.noSourcesFound ver.path)
  else
    match mapExcept (fun src => Source.element src repo pkg ver) ver.sources with
    | .error e => .error e
    | .ok elems =>
      if pkg.pkgType = .script ∧ elems.all (fun e => e.main.isEmpty) then
        .error (.noEntrypointsFoundForScriptPackage pkg.path)
      else
        .ok { name := ver.name
              author := pkg.author.getD repo.author
              timeRfc3339 := ver.timeRfc3339
              changelog := ver.changelog.map cdata
              sources := elems }

/-! ## Lemmas about the comparators -/

theorem natCmp_eq_iff (a b : Nat) : natCmp a b = .eq ↔ a = b := by
  unfold natCmp
  split
  · constructor
    · intro h; cases h
    · omega
  · split
    · constructor
      · intro h; cases h
      · omega
    · constructor
      · intro _; omega
      · intro _; rfl

theorem natCmp_swap (a b : Nat) : (natCmp a b).swap = natCmp b a := by
  unfold natCmp
  rcases Nat.lt_trichotomy a b with h | h | h
  · simp [h, Nat.lt_asymm h, Ordering.swap]
  · simp [h, Nat.lt_irrefl, Ordering.swap]
  · simp [h, Nat.lt_asymm h, Nat.not_lt_of_gt h, Ordering.swap]

theorem natCmp_lt_trans {a b c : Nat} (h₁ : natCmp a b = .lt) (h₂ : natCmp b c = .lt) :
    natCmp a c = .lt := by
  unfold natCmp at *
  split at h₁
  case isTrue hab =>
    split at h₂
    case isTrue hbc => rw [if_pos (Nat.lt_trans hab hbc)]
    case isFalse => split at h₂ <;> cases h₂
  case isFalse => split at h₁ <;> cases h₁

theorem charCmp_eq_iff (a b : Char) : charCmp a b = .eq ↔ a = b := by
  unfold charCmp
  rw [natCmp_eq_iff]
  constructor
  · intro h
    unfold Char.toNat at h
    exact Char.eq_of_val_eq (UInt32.toNat.inj h)
  · intro h; rw [h]

theorem charCmp_swap (a b : Char) : (charCmp a b).swap = charCmp b a :=
  natCmp_swap a.toNat b.toNat

theorem charCmp_lt_trans {a b c : Char} (h₁ : charCmp a b = .lt) (h₂ : charCmp b c = .lt) :
    charCmp a c = .lt :=
  natCmp_lt_trans h₁ h₂

theorem lexCompare_refl (cmp : α → α → Ordering) (h : ∀ a, cmp a a = .eq) :
    ∀ l, lexCompare cmp l l = .eq := by
  intro l
  induction l with
  | nil => rfl
  | cons a as ih => simp [lexCompare, h a, ih]

theorem lexCompare_eq_iff (cmp : α → α → Ordering) (h : ∀ a b, cmp a b = .eq ↔ a = b) :
    ∀ l m, lexCompare cmp l m = .eq ↔ l = m := by
  intro l
  induction l with
  | nil =>
    intro m
    cases m with
    | nil => simp [lexCompare]
    | cons b bs => simp [lexCompare]
  | cons a as ih =>
    intro m
    cases m with
    | nil => simp [lexCompare]
    | cons b bs =>
      rcases hc : cmp a b with _ | _ | _
      · simp only [lexCompare, hc]
        constructor
        · intro hx; cases hx
        · rintro ⟨rfl, rfl⟩; rw [(h a a).mpr rfl] at hc; cases hc
      · have hab : a = b := (h a b).mp hc
        subst hab
        simp [lexCompare, hc, ih bs]
      · simp only [lexCompare, hc]
        constructor
        · intro hx; cases hx
        · rintro ⟨rfl, rfl⟩; rw [(h a a).mpr rfl] at hc; cases hc

theorem lexCompare_swap (cmp : α → α → Ordering) (h : ∀ a b, (cmp a b).swap = cmp b a) :
    ∀ l m, (lexCompare cmp l m).swap = lexCompare cmp m l := by
  intro l
  induction l with
  | nil =>
    intro m
    cases m <;> rfl
  | cons a as ih =>
    intro m
    cases m with
    | nil => rfl
    | cons b bs =>
      rcases hc : cmp a b with _ | _ | _
      · have hba : cmp b a = Ordering.gt := by rw [← h a b, hc]; rfl
        simp only [lexCompare, hc, hba]
        rfl
      · have hba : cmp b a = Ordering.eq := by rw [← h a b, hc]; rfl
        simp only [lexCompare, hc, hba]
        exact ih bs
      · have hba : cmp b a = Ordering.lt := by rw [← h a b, hc]; rfl
        simp only [lexCompare, hc, hba]
        rfl

theorem lexCompare_lt_trans (cmp : α → α → Ordering)
    (heq : ∀ a b, cmp a b = .eq ↔ a = b)
    (hlt : ∀ a b c, cmp a b = .lt → cmp b c = .lt → cmp a c = .lt) :
    ∀ l m n, lexCompare cmp l m = .lt → lexCompare cmp m n = .lt →
      lexCompare cmp l n = .lt := by
  intro l
  induction l with
  | nil =>
    intro m n h₁ h₂
    cases m with
    | nil => cases h₁
    | cons b bs =>
      cases n with
      | nil => cases h₂
      | cons c cs => rfl
  | cons a as ih =>
    intro m n h₁ h₂
    cases m with
    | nil => cases h₁
    | cons b bs =>
      cases n with
      | nil => cases h₂
      | cons c cs =>
        simp only [lexCompare] at h₁ h₂ ⊢
        rcases hab : cmp a b with _ | _ | _ <;> simp only [hab] at h₁
        · rcases hbc : cmp b c with _ | _ | _ <;> simp only [hbc] at h₂
          · simp only [hlt a b c hab hbc]
          · have hbc2 : b = c := (heq b c).mp hbc
            subst hbc2
            simp only [hab]
          · exact Ordering.noConfusion h₂
        · have hab2 : a = b := (heq a b).mp hab
          subst hab2
          rcases hbc : cmp a c with _ | _ | _ <;> simp only [hbc] at h₂
          · simp only [hbc]
          · have hbc2 : a = c := (heq a c).mp hbc
            subst hbc2
            simp only [(heq a a).mpr rfl]
            exact ih bs cs h₁ h₂
          · exact Ordering.noConfusion h₂
        · exact Ordering.noConfusion h₁

theorem lexCompare_strict_prefix_gt (cmp : α → α → Ordering) (h : ∀ a, cmp a a = .eq) :
    ∀ l m, m <+: l → m.length < l.length → lexCompare cmp l m = .gt := by
  intro l
  induction l with
  | nil =>
    intro m hp hl
    simp at hl
  | cons a as ih =>
    intro m hp hl
    cases m with
    | nil => rfl
    | cons b bs =>
      obtain ⟨t, ht⟩ := hp
      rw [List.cons_append] at ht
      injection ht with h1 h2
      rw [h1]
      simp only [lexCompare, h a]
      exact ih bs ⟨t, h2⟩ (by simpa using hl)

theorem strCmp_eq_iff (a b : List Char) : strCmp a b = .eq ↔ a = b :=
  lexCompare_eq_iff charCmp charCmp_eq_iff a b

theorem strCmp_refl (a : List Char) : strCmp a a = .eq :=
  lexCompare_refl charCmp (fun c => (charCmp_eq_iff c c).mpr rfl) a

theorem strCmp_swap (a b : List Char) : (strCmp a b).swap = strCmp b a :=
  lexCompare_swap charCmp charCmp_swap a b

theorem strCmp_lt_trans {a b c : List Char} (h₁ : strCmp a b = .lt)
    (h₂ : strCmp b c = .lt) : strCmp a c = .lt :=
  lexCompare_lt_trans charCmp charCmp_eq_iff (fun _ _ _ => charCmp_lt_trans) a b c h₁ h₂

/-! ## Claim C2 -/

/-- C2: `compare_version_names` splits both strings on `'.'` and compares the
segments pairwise as strings in lexicographic (not numeric) order, so that
comparing `"9"` and `"10"` gives `Greater`; when all shared segments are equal
the version with more segments is greater; equal segment sequences compare
`Equal` (and conversely, `Equal` forces equal segment sequences, which is
antisymmetry up to equal segments); the comparison is reflexive, transitive
(in both the `lt` and `gt` directions) and swap-symmetric, hence a total
order. -/
theorem compare_version_names_spec :
    (compare_version_names "9".data "10".data = .gt
      ∧ compare_version_names "0.1.15".data "0.1.15".data = .eq
      ∧ compare_version_names "0.1.15b".data "0.1.15".data = .gt)
    ∧ (∀ a, compare_version_names a a = .eq)
    ∧ (∀ a b, compare_version_names a b = .eq ↔ splitOnDot a = splitOnDot b)
    ∧ (∀ a b, (compare_version_names a b).swap = compare_version_names b a)
    ∧ (∀ a b c, compare_version_names a b = .lt → compare_version_names b c = .lt →
        compare_version_names a c = .lt)
    ∧ (∀ a b c, compare_version_names a b = .gt → compare_version_names b c = .gt →
        compare_version_names a c = .gt)
    ∧ (∀ a b, splitOnDot b <+: splitOnDot a →
        (splitOnDot b).length < (splitOnDot a).length →
        compare_version_names a b = .gt) := by
  have heq : ∀ l m, lexCompare strCmp l m = .eq ↔ l = m :=
    lexCompare_eq_iff strCmp strCmp_eq_iff
  have hswap : ∀ l m, (lexCompare strCmp l m).swap = lexCompare strCmp m l :=
    lexCompare_swap strCmp strCmp_swap
  have hlt : ∀ l m n, lexCompare strCmp l m = .lt → lexCompare strCmp m n = .lt →
      lexCompare strCmp l n = .lt :=
    lexCompare_lt_trans strCmp strCmp_eq_iff (fun _ _ _ => strCmp_lt_trans)
  refine ⟨⟨by decide, by decide, by decide⟩, ?_, ?_, ?_, ?_, ?_, ?_⟩
  · exact fun a => lexCompare_refl strCmp strCmp_refl (splitOnDot a)
  · exact fun a b => heq (splitOnDot a) (splitOnDot b)
  · exact fun a b => hswap (splitOnDot a) (splitOnDot b)
  · exact fun a b c => hlt (splitOnDot a) (splitOnDot b) (splitOnDot c)
  · intro a b c h₁ h₂
    unfold compare_version_names at h₁ h₂ ⊢
    have s₁ : lexCompare strCmp (splitOnDot b) (splitOnDot a) = .lt := by
      rw [← hswap (splitOnDot a) (splitOnDot b), h₁]
      rfl
    have s₂ : lexCompare strCmp (splitOnDot c) (splitOnDot b) = .lt := by
      rw [← hswap (splitOnDot b) (splitOnDot c), h₂]
      rfl
    have h3 := hlt (splitOnDot c) (splitOnDot b) (splitOnDot a) s₂ s₁
    rw [← hswap (splitOnDot c) (splitOnDot a), h3]
    rfl
  · exact fun a b hp hl =>
      lexCompare_strict_prefix_gt strCmp strCmp_refl (splitOnDot a) (splitOnDot b) hp hl

/-- Concrete instantiation of `compare_version_names_spec`, discharging each
hypothesis: transitivity at `"1.2" < "1.3" < "2"`, the strict-prefix rule at
`"0.1" <+: "0.1.15"`, and reflexivity at `"7.7"`. -/
theorem compare_version_names_spec_witness :
    compare_version_names "1.2".data "2".data = .lt
    ∧ compare_version_names "0.1.15".data "0.1".data = .gt
    ∧ compare_version_names "7.7".data "7.7".data = .eq :=
  ⟨compare_version_names_spec.2.2.2.2.1 "1.2".data "1.3".data "2".data
      (by decide) (by decide),
    compare_version_names_spec.2.2.2.2.2.2 "0.1.15".data "0.1".data
      (by decide) (by decide),
    compare_version_names_spec.2.1 "7.7".data⟩

/-! ## Claims C3 and C10 -/

theorem takeWhile_all_eq (p : α → Bool) (l : List α) (h : ∀ c ∈ l, p c = true) :
    l.takeWhile p = l := by
  induction l with
  | nil => rfl
  | cons a as ih =>
    simp [List.takeWhile_cons, h a (by simp), ih (fun c hc => h c (by simp [hc]))]

theorem takeWhile_nil_of_head (p : α → Bool) (l : List α)
    (h : ∀ c ∈ l.head?, p c = false) : l.takeWhile p = [] := by
  cases l with
  | nil => rfl
  | cons a as => simp [List.takeWhile_cons, h a (by simp)]

/-- C3 (amended): on a string whose maximal trailing ASCII-digit run `s` is
non-empty and has value small enough that the incremented value still fits in
`u32`, `increment_version` returns the unchanged non-digit part followed by
the decimal rendering of the parsed value plus one; it fails with
`UnknownVersionFormat` exactly when the string has no trailing ASCII digit;
and the concrete examples from the spec hold. -/
theorem increment_version_spec :
    (∀ pre s, s ≠ [] → (∀ c ∈ s, c.isDigit = true) →
      (∀ c ∈ pre.getLast?, c.isDigit = false) →
      parseDigits s + 1 ≤ U32_MAX →
      increment_version (pre ++ s) = .ok (pre ++ Nat.toDigits 10 (parseDigits s + 1)))
    ∧ (∀ t, increment_version t = .unknownVersionFormat t ↔
        ∀ c ∈ t.getLast?, c.isDigit = false)
    ∧ increment_version "0.1.15".data = .ok "0.1.16".data
    ∧ increment_version "0.1".data = .ok "0.2".data
    ∧ increment_version "v2".data = .ok "v3".data
    ∧ increment_version "0.1.9".data = .ok "0.1.10".data
    ∧ increment_version "0.1a".data = .unknownVersionFormat "0.1a".data := by
  refine ⟨?_, ?_, by decide, by decide, by decide, by decide, by decide⟩
  · intro pre s hs hdig hlast hle
    have h1 : s.reverse.takeWhile Char.isDigit = s.reverse :=
      takeWhile_all_eq _ _ (fun c hc => hdig c (List.mem_reverse.mp hc))
    have h2 : pre.reverse.takeWhile Char.isDigit = [] :=
      takeWhile_nil_of_head _ _ (fun c hc => hlast c (by rwa [List.head?_reverse] at hc))
    have hsuf : (pre ++ s).reverse.takeWhile Char.isDigit = s.reverse := by
      rw [List.reverse_append, List.takeWhile_append, h1, if_pos rfl, h2, List.append_nil]
    simp only [increment_version, hsuf, List.reverse_reverse]
    rw [if_neg (by simp [hs]), if_pos (by omega)]
    rw [List.length_append, Nat.add_sub_cancel, List.take_left,
      Nat.mod_eq_of_lt (by omega)]
  · intro t
    constructor
    · intro h
      by_cases hemp : t.reverse.takeWhile Char.isDigit = []
      · intro c hc
        rw [List.getLast?_eq_head?_reverse] at hc
        cases hr : t.reverse with
        | nil => rw [hr] at hc; cases hc
        | cons a as =>
          rw [hr] at hc hemp
          have hca : a = c := by simpa using hc
          subst hca
          by_contra hd
          rw [List.takeWhile_cons] at hemp
          simp only [eq_true_of_ne_false hd] at hemp
          cases hemp
      · exfalso
        simp only [increment_version] at h
        rw [if_neg (by simp [hemp])] at h
        split at h <;> cases h
    · intro h
      have h2 : t.reverse.takeWhile Char.isDigit = [] :=
        takeWhile_nil_of_head _ _ (fun c hc => h c (by rwa [List.head?_reverse] at hc))
      simp only [increment_version, h2, List.reverse_nil]
      rfl

/-- Concrete instantiation of `increment_version_spec`, discharging each
hypothesis: the general success rule at `"ver" ++ "41"` and the failure
characterization at `"0.1a"`. -/
theorem increment_version_spec_witness :
    increment_version ("ver".data ++ "41".data) = .ok ("ver".data ++ Nat.toDigits 10 42)
    ∧ (increment_version "0.1a".data = .unknownVersionFormat "0.1a".data ↔
        ∀ c ∈ "0.1a".data.getLast?, c.isDigit = false) :=
  ⟨increment_version_spec.1 "ver".data "41".data (by decide) (by decide) (by decide)
      (by decide),
    increment_version_spec.2.1 "0.1a".data⟩

/-- C3 counterexample: the input `"1.4294967296"` ends in the digit run
`4294967296`, whose value exceeds `u32::MAX`, so `increment_version` panics
instead of returning either the incremented string (as the claim requires) or
an `UnknownVersionFormat` error. -/
theorem increment_version_overflow_cex :
    increment_version "1.4294967296".data = .panic
    ∧ IncrementResult.panic ≠ .ok "1.4294967297".data
    ∧ IncrementResult.panic ≠ .unknownVersionFormat "1.4294967296".data :=
  ⟨by decide, by decide, by decide⟩

/-- C10: `increment_version` is not total over strings ending in a digit run:
on `"1.4294967296"`, whose trailing run has value `4294967296 > u32::MAX`,
the `unwrap` on the failed `u32` parse panics instead of producing a result. -/
theorem increment_version_panics_on_u32_overflow :
    U32_MAX < parseDigits "4294967296".data
    ∧ increment_version "1.4294967296".data = .panic :=
  ⟨by decide, by decide⟩

/-! ## Claim C4 -/

theorem splitOnCdataEnd_ne_nil (t : List Char) : splitOnCdataEnd t ≠ [] := by
  induction t using splitOnCdataEnd.induct <;> simp_all [splitOnCdataEnd]

theorem splitOnCdataEnd_no_end (t : List Char) (h : hasCdataEnd t = false) :
    splitOnCdataEnd t = [t] := by
  induction t using splitOnCdataEnd.induct <;> simp_all [splitOnCdataEnd, hasCdataEnd]

theorem splitOnCdataEnd_head_isPrefix (t : List Char) :
    ∀ s ss, splitOnCdataEnd t = s :: ss → s <+: t := by
  induction t using splitOnCdataEnd.induct with
  | case1 rest ih =>
    intro s ss h
    simp only [splitOnCdataEnd] at h
    injection h with h1 _
    rw [← h1]
    exact List.nil_prefix
  | case2 c rest hne s₀ ss₀ heq ih =>
    intro s ss h
    rw [splitOnCdataEnd.eq_2 c rest hne, heq] at h
    injection h with h1 _
    rw [← h1]
    exact (List.cons_prefix_cons).mpr ⟨rfl, ih s₀ ss₀ heq⟩
  | case3 c rest hne hnil ih => exact absurd hnil (splitOnCdataEnd_ne_nil rest)
  | case4 =>
    intro s ss h
    simp only [splitOnCdataEnd] at h
    injection h with h1 _
    rw [← h1]

theorem splitOnCdataEnd_parts_no_end (t : List Char) :
    ∀ part ∈ splitOnCdataEnd t, hasCdataEnd part = false := by
  induction t using splitOnCdataEnd.induct with
  | case1 rest ih =>
    intro part hp
    simp only [splitOnCdataEnd] at hp
    rcases List.mem_cons.mp hp with h | h
    · rw [h]; rfl
    · exact ih part h
  | case2 c rest hne s₀ ss₀ heq ih =>
    intro part hp
    rw [splitOnCdataEnd.eq_2 c rest hne, heq] at hp
    rcases List.mem_cons.mp hp with h | h
    · subst h
      have hs : hasCdataEnd s₀ = false := ih s₀ (by rw [heq]; exact List.mem_cons_self s₀ ss₀)
      rw [hasCdataEnd.eq_2 c s₀ ?side]
      · exact hs
      case side =>
        intro u hc hsu
        have hpre : s₀ <+: rest := splitOnCdataEnd_head_isPrefix rest s₀ ss₀ heq
        obtain ⟨v, hv⟩ := hpre
        rw [hsu] at hv
        exact hne (u ++ v) hc (by rw [← hv]; simp)
    · exact ih part (by rw [heq]; exact List.mem_cons_of_mem _ h)
  | case3 c rest hne hnil ih => exact absurd hnil (splitOnCdataEnd_ne_nil rest)
  | case4 =>
    intro part hp
    simp only [splitOnCdataEnd] at hp
    have : part = ([] : List Char) := by simpa using hp
    rw [this]
    rfl

/-- C4: for text containing no `]]>`, `cdata` is exactly the text wrapped in
one CDATA section; text containing `]]>` is split into adjacent CDATA
sections as in the `"app]]>le"` example; and no part emitted as a section's
text ever contains the premature terminator `]]>`. -/
theorem cdata_spec :
    (∀ t, hasCdataEnd t = false →
      cdata t = "<![CDATA[".data ++ t ++ "]]>".data)
    ∧ cdata "app]]>le".data = "<![CDATA[app]]]]><![CDATA[>le]]>".data
    ∧ (∀ t part, part ∈ splitOnCdataEnd t → hasCdataEnd part = false) := by
  refine ⟨?_, by decide, fun t => splitOnCdataEnd_parts_no_end t⟩
  intro t h
  unfold cdata
  rw [splitOnCdataEnd_no_end t h]
  simp [List.intercalate]

/-- Concrete instantiation of `cdata_spec`, discharging each hypothesis: the
no-terminator case at `"apple"` and the parts property at the first part of
`"app]]>le"`. -/
theorem cdata_spec_witness :
    cdata "apple".data = "<![CDATA[".data ++ "apple".data ++ "]]>".data
    ∧ hasCdataEnd "app".data = false :=
  ⟨cdata_spec.1 "apple".data (by decide),
    cdata_spec.2.2 "app]]>le".data "app".data (by decide)⟩

/-! ## Sample data used by the witnesses -/

/-- Sample repository. -/
def wRepo : Repository :=
  { path := "/r".data, identifier := "r".data, author := "me".data,
    urlPattern := "https://host/{relpath}".data, gitHash := some "abc123".data }

/-- Sample source matching `scripts/*.lua`. -/
def wSrcMatch : Source :=
  { relpathFromVersion := "scripts/foo.lua".data,
    relpathFromRepo := "p/0.0.1/scripts/foo.lua".data }

/-- Sample source not matching `scripts/*.lua` (extra directory level). -/
def wSrcOther : Source :=
  { relpathFromVersion := "scripts/sub/foo.lua".data,
    relpathFromRepo := "p/0.0.1/scripts/sub/foo.lua".data }

/-- Sample script package with a `scripts/*.lua` main entrypoint. -/
def wPkgScript : Package :=
  { path := "/r/p".data, identifier := "p".data, name := "p".data,
    category := "cat".data, pkgType := .script, author := none,
    configEntrypoints := some [(.mainSection, ["scripts/*.lua".data])] }

/-- Sample script package with no entrypoint map anywhere. -/
def wPkgNoEps : Package := { wPkgScript with configEntrypoints := none }

/-- Sample non-script package carrying a non-empty entrypoint map. -/
def wPkgEffect : Package := { wPkgScript with pkgType := .effect }

/-- Sample version owning both sample sources, no own entrypoint map. -/
def wVer : Version :=
  { path := "/r/p/0.0.1".data, name := "0.0.1".data,
    timeRfc3339 := "2024-01-01T00:00:00+00:00".data,
    configEntrypoints := none, changelog := none,
    sources := [wSrcMatch, wSrcOther] }

/-- Sample version whose only source matches no entrypoint pattern. -/
def wVerNoMatch : Version := { wVer with sources := [wSrcOther] }

/-! ## Claim C1 -/

theorem mapExcept_ok_of_all (f : α → Except ε β) (P : β → Prop) :
    ∀ l : List α, (∀ a ∈ l, ∃ b, f a = .ok b ∧ P b) →
      ∃ bs, mapExcept f l = .ok bs ∧ ∀ b ∈ bs, P b := by
  intro l
  induction l with
  | nil => exact fun _ => ⟨[], rfl, by simp⟩
  | cons a as ih =>
    intro h
    obtain ⟨b, hb, hPb⟩ := h a (by simp)
    obtain ⟨bs, hbs, hPbs⟩ := ih (fun x hx => h x (by simp [hx]))
    refine ⟨b :: bs, ?_, ?_⟩
    · rw [mapExcept, hb, hbs]
    · intro x hx
      rcases List.mem_cons.mp hx with h1 | h1
      · rw [h1]; exact hPb
      · exact hPbs x h1

/-- C1: policy checks of a version.  For a `script` package whose effective
entrypoint map is absent or has only empty pattern lists, classifying any
source fails with `NoEntrypointsDefinedForScriptPackage`; for a `script`
package all of whose sources classify successfully into the empty section
set, rendering the version fails with `NoEntrypointsFoundForScriptPackage`;
for a non-`script` package whose effective map has at least one non-empty
pattern list, classifying any source — whether or not anything matches —
fails with `EntrypointsOnlyAllowedInScriptPackages`. -/
theorem version_policy_spec :
    (∀ (src : Source) (pkg : Package) (ver : Version), pkg.pkgType = .script →
      (ver.entrypoints pkg = none ∨
        ∃ e, ver.entrypoints pkg = some e ∧ e.all (fun se => se.2.isEmpty) = true) →
      src.sections pkg ver = .error (.noEntrypointsDefinedForScriptPackage pkg.path))
    ∧ (∀ (repo : Repository) (pkg : Package) (ver : Version), pkg.pkgType = .script →
      ver.sources ≠ [] →
      (∀ src ∈ ver.sources, ∃ el, Source.element src repo pkg ver = .ok el ∧ el.main = []) →
      ver.element repo pkg = .error (.noEntrypointsFoundForScriptPackage pkg.path))
    ∧ (∀ (src : Source) (pkg : Package) (ver : Version), pkg.pkgType ≠ .script →
      (∃ e, ver.entrypoints pkg = some e ∧ e.any (fun se => !se.2.isEmpty) = true) →
      src.sections pkg ver = .error (.entrypointsOnlyAllowedInScriptPackages pkg.path)) := by
  refine ⟨?_, ?_, ?_⟩
  · intro src pkg ver hscript h
    rcases h with h | ⟨e, he, hall⟩
    · simp [Source.sections, hscript, h]
    · simp [Source.sections, hscript, he, hall]
  · intro repo pkg ver hscript hne hall
    obtain ⟨els, hels, hmain⟩ :=
      mapExcept_ok_of_all (fun src => Source.element src repo pkg ver)
        (fun el => el.main = []) ver.sources hall
    unfold Version.element
    rw [if_neg (by simp [hne])]
    simp only [hels]
    rw [if_pos ⟨hscript, by simpa [List.all_eq_true, List.isEmpty_iff] using hmain⟩]
  · intro src pkg ver hscript ⟨e, he, hany⟩
    simp [Source.sections, hscript, he, hany]

/-- Concrete instantiation of `version_policy_spec`, discharging each
hypothesis on the sample data: a script package with no entrypoint map, a
script version none of whose sources matches, and a non-script package with a
non-empty map. -/
theorem version_policy_spec_witness :
    Source.sections wSrcMatch wPkgNoEps wVer =
      .error (.noEntrypointsDefinedForScriptPackage "/r/p".data)
    ∧ Version.element wVerNoMatch wRepo wPkgScript =
      .error (.noEntrypointsFoundForScriptPackage "/r/p".data)
    ∧ Source.sections wSrcMatch wPkgEffect wVer =
      .error (.entrypointsOnlyAllowedInScriptPackages "/r/p".data) :=
  ⟨version_policy_spec.1 wSrcMatch wPkgNoEps wVer (by decide) (Or.inl (by decide)),
    version_policy_spec.2.1 wRepo wPkgScript wVerNoMatch (by decide) (by decide)
      (by
        intro src hsrc
        have hs : src = wSrcOther := by
          simpa [wVerNoMatch, wVer] using hsrc
        subst hs
        exact ⟨{ url := "https://host/p/0.0.1/scripts/sub/foo.lua".data,
                 file := "../p/scripts/sub/foo.lua".data, main := [] },
          by decide, rfl⟩),
    version_policy_spec.2.2 wSrcMatch wPkgEffect wVer (by decide)
      ⟨build_entrypoints [(.mainSection, ["scripts/*.lua".data])], by decide, by decide⟩⟩

/-! ## Claim C6 -/

/-- C6: when a version's config defines its own entrypoint map, the effective
map is exactly the compiled version map, and the package's map is irrelevant
to the classification of every source of that version (full replacement, no
merging); when the version defines no map, the package's map is used. -/
theorem version_entrypoints_override_spec :
    (∀ (ver : Version) (pkg : Package) m, ver.configEntrypoints = some m →
      ver.entrypoints pkg = some (build_entrypoints m)
      ∧ ∀ e' src, Source.sections src pkg ver =
          Source.sections src { pkg with configEntrypoints := e' } ver)
    ∧ (∀ (ver : Version) (pkg : Package), ver.configEntrypoints = none →
      ver.entrypoints pkg = pkg.entrypoints) := by
  constructor
  · intro ver pkg m h
    constructor
    · simp [Version.entrypoints, h]
    · intro e' src
      simp [Source.sections, Version.entrypoints, h]
  · intro ver pkg h
    simp [Version.entrypoints, h]

/-- Concrete instantiation of `version_entrypoints_override_spec`: a version
with its own map replaces the package map of `wPkgScript` for classification;
`wVer` (no own map) falls back to the package map. -/
theorem version_entrypoints_override_spec_witness :
    ({ wVer with
        configEntrypoints := some [(.mediaExplorerSection, ["*.wav".data])] } :
          Version).entrypoints wPkgScript =
      some (build_entrypoints [(.mediaExplorerSection, ["*.wav".data])])
    ∧ wVer.entrypoints wPkgScript = wPkgScript.entrypoints :=
  ⟨(version_entrypoints_override_spec.1
      { wVer with configEntrypoints := some [(.mediaExplorerSection, ["*.wav".data])] }
      wPkgScript [(.mediaExplorerSection, ["*.wav".data])] rfl).1,
    version_entrypoints_override_spec.2 wVer wPkgScript rfl⟩

/-! ## Claim C5 -/

/-- C5: a file is classified into a section exactly when at least one glob
pattern of that section's list matches its version-relative path under
literal-separator semantics; in particular, with the single pattern
`scripts/*.lua` under the main section, `scripts/foo.lua` classifies into
the main section only and `scripts/sub/foo.lua` into the empty set, because
a bare `*` does not cross a `/` boundary. -/
theorem entrypoint_classification_spec :
    (∀ (m : RawEntrypoints) (path : List Char) (sec : ActionListSection),
      sec ∈ classify (build_entrypoints m) path ↔
        ∃ pats, (sec, pats) ∈ m ∧ ∃ p ∈ pats, globMatch (parseGlob p) path = true)
    ∧ globMatch (parseGlob "scripts/*.lua".data) "scripts/foo.lua".data = true
    ∧ globMatch (parseGlob "scripts/*.lua".data) "scripts/sub/foo.lua".data = false
    ∧ Source.sections wSrcMatch wPkgScript wVer = .ok [.mainSection]
    ∧ Source.sections wSrcOther wPkgScript wVer = .ok [] := by
  refine ⟨?_, by decide, by decide, by decide, by decide⟩
  intro m path sec
  unfold classify build_entrypoints globsetMatches
  rw [List.filterMap_map]
  constructor
  · intro h
    obtain ⟨⟨s, pats⟩, hmem, hf⟩ := List.mem_filterMap.mp h
    by_cases hmatch : (pats.map parseGlob).any (fun g => globMatch g path) = true
    · simp only [Function.comp, hmatch, if_true] at hf
      injection hf with hf
      subst hf
      obtain ⟨g, hg, hgm⟩ := List.any_eq_true.mp hmatch
      obtain ⟨p, hp, hpg⟩ := List.mem_map.mp hg
      exact ⟨pats, hmem, p, hp, by rw [hpg]; exact hgm⟩
    · simp only [Function.comp, hmatch, if_false] at hf
      cases hf
  · rintro ⟨pats, hmem, p, hp, hpm⟩
    apply List.mem_filterMap.mpr
    refine ⟨(sec, pats), hmem, ?_⟩
    have hmatch : (pats.map parseGlob).any (fun g => globMatch g path) = true :=
      List.any_eq_true.mpr ⟨parseGlob p, List.mem_map.mpr ⟨p, hp, rfl⟩, hpm⟩
    simp only [Function.comp, hmatch, if_true]

/-- Concrete instantiation of `entrypoint_classification_spec`: classifying
`scripts/foo.lua` against the sample map puts it in the main section. -/
theorem entrypoint_classification_spec_witness :
    ActionListSection.mainSection ∈
      classify (build_entrypoints [(.mainSection, ["scripts/*.lua".data])])
        "scripts/foo.lua".data ↔
      ∃ pats, (ActionListSection.mainSection, pats) ∈
          [(ActionListSection.mainSection, ["scripts/*.lua".data])]
        ∧ ∃ p ∈ pats, globMatch (parseGlob p) "scripts/foo.lua".data = true :=
  entrypoint_classification_spec.1 [(.mainSection, ["scripts/*.lua".data])]
    "scripts/foo.lua".data .mainSection

/-! ## Claim C8 -/

/-- Sample repository whose URL pattern contains an unknown placeholder. -/
def wRepoFoo : Repository := { wRepo with urlPattern := "https://host/{foo}".data }

theorem renderSegs_ok_keys {vals : List Char → Option (List Char)} :
    ∀ (segs : List TemplateSeg) (r : List Char), renderSegs vals segs = .ok r →
      ∀ k ∈ segKeys segs, vals k ≠ none := by
  intro segs
  induction segs with
  | nil =>
    intro r h k hk
    simp [segKeys] at hk
  | cons s rest ih =>
    intro r h k hk
    cases s with
    | text t =>
      cases hr : renderSegs vals rest with
      | error e =>
        simp only [renderSegs, hr, Except.map] at h
        exact Except.noConfusion h
      | ok r2 => exact ih r2 hr k (by simpa [segKeys] using hk)
    | key k₀ =>
      cases hv : vals k₀ with
      | none =>
        simp only [renderSegs, hv] at h
        exact Except.noConfusion h
      | some v =>
        rcases List.mem_cons.mp (by simpa [segKeys] using hk : k ∈ k₀ :: segKeys rest)
          with h1 | h1
        · subst h1; simp [hv]
        · cases hr : renderSegs vals rest with
          | error e =>
            simp only [renderSegs, hv, hr, Except.map] at h
            exact Except.noConfusion h
          | ok r2 => exact ih r2 hr k h1

theorem renderSegs_error_of_missing (vals : List Char → Option (List Char)) :
    ∀ segs : List TemplateSeg, (∃ k ∈ segKeys segs, vals k = none) →
      ∃ k, renderSegs vals segs = .error (.missingUrlVariable k) ∧
        k ∈ segKeys segs ∧ vals k = none := by
  intro segs
  induction segs with
  | nil =>
    rintro ⟨k, hk, _⟩
    simp [segKeys] at hk
  | cons s rest ih =>
    rintro ⟨k, hk, hv⟩
    cases s with
    | text t =>
      have hrest : ∃ k ∈ segKeys rest, vals k = none :=
        ⟨k, by simpa [segKeys] using hk, hv⟩
      obtain ⟨k2, hr, hk2, hv2⟩ := ih hrest
      exact ⟨k2, by simp only [renderSegs, hr, Except.map], by simpa [segKeys] using hk2, hv2⟩
    | key k₀ =>
      cases hv₀ : vals k₀ with
      | none =>
        exact ⟨k₀, by simp only [renderSegs, hv₀], by simp [segKeys], hv₀⟩
      | some v =>
        have hkr : k ∈ segKeys rest := by
          rcases List.mem_cons.mp (by simpa [segKeys] using hk : k ∈ k₀ :: segKeys rest)
            with h1 | h1
          · subst h1; rw [hv₀] at hv; cases hv
          · exact h1
        obtain ⟨k2, hr, hk2, hv2⟩ := ih ⟨k, hkr, hv⟩
        exact ⟨k2, by simp only [renderSegs, hv₀, hr, Except.map],
          List.mem_cons_of_mem k₀ hk2, hv2⟩

/-- C8: rendering a source's URL succeeds only if every placeholder key of
the pattern is one of the recognized variables `relpath` and `git_commit`;
when the revision id is available and the pattern contains an unrecognized
placeholder, rendering fails with an unknown-variable error naming an
unrecognized placeholder of the pattern — concretely, `{foo}` is reported
for the pattern `https://host/{foo}`. -/
theorem url_template_spec :
    (∀ (src : Source) (repo : Repository) (r : List Char),
      Source.url src repo = .ok r →
      ∃ segs, parseTemplate repo.urlPattern = some segs ∧
        ∀ k ∈ segKeys segs, k = "relpath".data ∨ k = "git_commit".data)
    ∧ (∀ (src : Source) (repo : Repository) (segs : List TemplateSeg),
      parseTemplate repo.urlPattern = some segs →
      repo.gitHash.isSome = true →
      (∃ k ∈ segKeys segs, k ≠ "relpath".data ∧ k ≠ "git_commit".data) →
      ∃ k, Source.url src repo = .error (.missingUrlVariable k) ∧
        k ∈ segKeys segs ∧ k ≠ "relpath".data ∧ k ≠ "git_commit".data)
    ∧ Source.url wSrcOther wRepoFoo = .error (.missingUrlVariable "foo".data) := by
  refine ⟨?_, ?_, by decide⟩
  · intro src repo r h
    unfold Source.url at h
    cases hp : parseTemplate repo.urlPattern with
    | none => rw [hp] at h; cases h
    | some segs =>
      rw [hp] at h
      refine ⟨segs, rfl, ?_⟩
      intro k hk
      have hne := renderSegs_ok_keys segs r h k hk
      unfold Source.getValue at hne
      by_cases h1 : k = "git_commit".data
      · exact Or.inr h1
      · by_cases h2 : k = "relpath".data
        · exact Or.inl h2
        · rw [if_neg h1, if_neg h2] at hne
          exact absurd rfl hne
  · intro src repo segs hp hg ⟨k, hk, hk1, hk2⟩
    have hvals : src.getValue repo k = none := by
      unfold Source.getValue
      rw [if_neg hk2, if_neg hk1]
    obtain ⟨k2, hr, hk2m, hv2⟩ :=
      renderSegs_error_of_missing (src.getValue repo) segs ⟨k, hk, hvals⟩
    obtain ⟨g, hgv⟩ := Option.isSome_iff_exists.mp hg
    refine ⟨k2, ?_, hk2m, ?_, ?_⟩
    · unfold Source.url
      rw [hp]
      exact hr
    · intro hrel
      rw [hrel] at hv2
      unfold Source.getValue at hv2
      simp at hv2
    · intro hgit
      rw [hgit] at hv2
      unfold Source.getValue at hv2
      simp [hgv] at hv2

/-- Concrete instantiation of `url_template_spec`, discharging each
hypothesis: the success direction on the sample repository and the
unknown-variable direction on the `{foo}` pattern. -/
theorem url_template_spec_witness :
    (∃ segs, parseTemplate wRepo.urlPattern = some segs ∧
      ∀ k ∈ segKeys segs, k = "relpath".data ∨ k = "git_commit".data)
    ∧ (∃ k, Source.url wSrcOther wRepoFoo = .error (.missingUrlVariable k) ∧
        k ∈ segKeys [.text ['h'], .text ['t'], .text ['t'], .text ['p'], .text ['s'],
          .text [':'], .text ['/'], .text ['/'], .text ['h'], .text ['o'], .text ['s'],
          .text ['t'], .text ['/'], .key "foo".data] ∧
        k ≠ "relpath".data ∧ k ≠ "git_commit".data) :=
  ⟨url_template_spec.1 wSrcOther wRepo "https://host/p/0.0.1/scripts/sub/foo.lua".data
      (by decide),
    url_template_spec.2.1 wSrcOther wRepoFoo
      [.text ['h'], .text ['t'], .text ['t'], .text ['p'], .text ['s'],
        .text [':'], .text ['/'], .text ['/'], .text ['h'], .text ['o'], .text ['s'],
        .text ['t'], .text ['/'], .key "foo".data]
      (by decide) (by decide) ⟨"foo".data, by decide, by decide, by decide⟩⟩

/-! ## Claim C7 -/

/-- Restatement of the spec's encode set on characters: ASCII alphanumerics
and `/`, `.`, `-`, `_` stay unescaped, everything else is escaped. -/
def isUnescapedChar (c : Char) : Bool := unescapedByte c.toNat

/-- Restatement of the spec's words for the encoding of one character: an
unescaped character is kept verbatim; every other character is
percent-encoded, each of its UTF-8 bytes rendered as `%XX`. -/
def specEncodeChar (c : Char) : List Char :=
  if isUnescapedChar c then [c]
  else (utf8Bytes c).flatMap
    (fun b => '%' :: hexDigitChar (b / 16) :: [hexDigitChar (b % 16)])

theorem unescapedByte_eq_false_of_ge (b : Nat) (h : 128 ≤ b) :
    unescapedByte b = false := by
  unfold unescapedByte
  simp only [Bool.or_eq_false_iff, Bool.and_eq_false_iff, decide_eq_false_iff_not]
  omega

theorem unescapedByte_lt_128 (b : Nat) (h : unescapedByte b = true) : b < 128 := by
  unfold unescapedByte at h
  simp only [Bool.or_eq_true, Bool.and_eq_true, decide_eq_true_eq] at h
  omega

theorem utf8Bytes_escaped (c : Char) (h : unescapedByte c.toNat = false) :
    ∀ b ∈ utf8Bytes c, unescapedByte b = false := by
  intro b hb
  unfold utf8Bytes at hb
  by_cases h1 : c.toNat < 128
  · simp only [h1, if_pos, List.mem_singleton] at hb
    rw [hb]
    exact h
  · rw [if_neg h1] at hb
    by_cases h2 : c.toNat < 2048
    · rw [if_pos h2] at hb
      simp only [List.mem_cons, List.not_mem_nil, or_false] at hb
      rcases hb with rfl | rfl <;> exact unescapedByte_eq_false_of_ge _ (by omega)
    · rw [if_neg h2] at hb
      by_cases h3 : c.toNat < 65536
      · rw [if_pos h3] at hb
        simp only [List.mem_cons, List.not_mem_nil, or_false] at hb
        rcases hb with rfl | rfl | rfl <;> exact unescapedByte_eq_false_of_ge _ (by omega)
      · rw [if_neg h3] at hb
        simp only [List.mem_cons, List.not_mem_nil, or_false] at hb
        rcases hb with rfl | rfl | rfl | rfl <;>
          exact unescapedByte_eq_false_of_ge _ (by omega)

theorem specEncodeChar_eq (c : Char) :
    (utf8Bytes c).flatMap percentEncodeByte = specEncodeChar c := by
  unfold specEncodeChar isUnescapedChar
  by_cases h : unescapedByte c.toNat = true
  · rw [if_pos h]
    have hlt : c.toNat < 128 := unescapedByte_lt_128 _ h
    unfold utf8Bytes
    rw [if_pos hlt]
    simp [percentEncodeByte, h, Char.ofNat_toNat]
  · rw [if_neg h]
    have hesc := utf8Bytes_escaped c (by simpa using h)
    revert hesc
    generalize utf8Bytes c = l
    intro hesc
    induction l with
    | nil => rfl
    | cons b bs ih =>
      have hb : unescapedByte b = false := hesc b (by simp)
      have ih2 := ih (fun x hx => hesc x (List.mem_cons_of_mem b hx))
      simp only [List.flatMap_cons]
      unfold percentEncodeByte at ih2 ⊢
      rw [if_neg (by simp [hb])]
      rw [ih2]

theorem percentEncodeChars_eq_flatMap (p : List Char) :
    percentEncodeChars p = p.flatMap specEncodeChar := by
  unfold percentEncodeChars
  rw [List.flatMap_assoc]
  induction p with
  | nil => rfl
  | cons c cs ih => simp only [List.flatMap_cons, specEncodeChar_eq, ih]

/-- C7: percent-encoding of a source's repository-relative path is a pure
function of the normalized path string, equal character-by-character to the
spec's encoding — ASCII alphanumerics and `/ . - _` kept verbatim, every
other character percent-encoded via its UTF-8 bytes; identical inputs yield
identical outputs, and the pattern `https://host/{relpath}` with relpath
`a b/c.lua` renders `https://host/a%20b/c.lua`. -/
theorem url_encode_path_spec :
    (∀ p q : List Char, p = q → url_encode_path p = url_encode_path q)
    ∧ (∀ p : List Char,
        url_encode_path p = (normalizeRelPath p).flatMap specEncodeChar)
    ∧ url_encode_path "a b/c.lua".data = "a%20b/c.lua".data
    ∧ Source.url { relpathFromVersion := "c.lua".data, relpathFromRepo := "a b/c.lua".data }
        wRepo = .ok "https://host/a%20b/c.lua".data := by
  refine ⟨fun p q h => by rw [h], ?_, by decide, by decide⟩
  intro p
  unfold url_encode_path
  exact percentEncodeChars_eq_flatMap (normalizeRelPath p)

/-- Concrete instantiation of `url_encode_path_spec`, discharging its
hypothesis: determinism at the sample path. -/
theorem url_encode_path_spec_witness :
    url_encode_path "a b/c.lua".data = url_encode_path "a b/c.lua".data :=
  url_encode_path_spec.1 "a b/c.lua".data "a b/c.lua".data rfl

/-! ## Claim C9 -/

theorem intercalate_slash_cons (x y : List Char) (l : List (List Char)) :
    List.intercalate ['/'] (x :: y :: l) = x ++ '/' :: List.intercalate ['/'] (y :: l) := by
  simp [List.intercalate, List.intersperse]

theorem intercalate_slash_singleton (x : List Char) :
    List.intercalate ['/'] [x] = x := by
  simp [List.intercalate]

theorem intercalate_slash_ne_nil (z : List Char) (zs : List (List Char)) (hz : z ≠ []) :
    List.intercalate ['/'] (z :: zs) ≠ [] := by
  cases zs with
  | nil => simpa [intercalate_slash_singleton] using hz
  | cons w ws => rw [intercalate_slash_cons]; simp

theorem joinRel_intercalate (l : List (List Char)) (x : List Char)
    (hl : ∀ y ∈ l, y ≠ []) (hx : x ≠ []) :
    joinRel (List.intercalate ['/'] l) x = List.intercalate ['/'] (l ++ [x]) := by
  induction l with
  | nil => simp [joinRel, List.intercalate, intercalate_slash_singleton]
  | cons y ys ih =>
    have hy : y ≠ [] := hl y (by simp)
    cases ys with
    | nil =>
      rw [intercalate_slash_singleton, List.cons_append, List.nil_append,
        intercalate_slash_cons, intercalate_slash_singleton]
      unfold joinRel
      rw [if_neg hy, if_neg hx]
    | cons z zs =>
      have hz : z ≠ [] := hl z (by simp)
      have ih2 := ih (fun w hw => hl w (List.mem_cons_of_mem y hw))
      unfold joinRel at ih2 ⊢
      rw [if_neg (intercalate_slash_ne_nil z zs hz), if_neg hx] at ih2
      have e1 : List.intercalate ['/'] (y :: z :: zs) =
          y ++ '/' :: List.intercalate ['/'] (z :: zs) := intercalate_slash_cons y z zs
      have e2 : List.intercalate ['/'] ((y :: z :: zs) ++ [x]) =
          y ++ '/' :: List.intercalate ['/'] ((z :: zs) ++ [x]) :=
        intercalate_slash_cons y z (zs ++ [x])
      rw [e1, e2, if_neg (by simp), if_neg hx, ← ih2]
      simp

/-- The number of normal (non-`.`, non-`..`) components of a category. -/
def normalComponentCount (category : List Char) : Nat :=
  (categoryComponents category).countP (fun c => c matches .normal _)

theorem replicate_dotdot_ne_nil :
    ∀ y ∈ List.replicate k "..".data, y ≠ ([] : List Char) := by
  intro y hy
  rw [List.eq_of_mem_replicate hy]
  simp

theorem intercalate_last_split (l : List (List Char)) (a b : List Char)
    (ha : a ≠ []) (hb : b ≠ []) :
    List.intercalate ['/'] (l ++ [joinRel a b]) =
      List.intercalate ['/'] (l ++ [a, b]) := by
  induction l with
  | nil =>
    simp only [List.nil_append, intercalate_slash_singleton, intercalate_slash_cons,
      intercalate_slash_singleton]
    unfold joinRel
    rw [if_neg ha, if_neg hb]
  | cons y ys ih =>
    cases ys with
    | nil =>
      have e1 : List.intercalate ['/'] ([y] ++ [joinRel a b]) =
          y ++ '/' :: List.intercalate ['/'] [joinRel a b] :=
        intercalate_slash_cons y (joinRel a b) []
      have e2 : List.intercalate ['/'] ([y] ++ [a, b]) =
          y ++ '/' :: List.intercalate ['/'] [a, b] :=
        intercalate_slash_cons y a [b]
      rw [e1, e2, intercalate_slash_singleton, intercalate_slash_cons,
        intercalate_slash_singleton]
      unfold joinRel
      rw [if_neg ha, if_neg hb]
    | cons z zs =>
      have e1 : List.intercalate ['/'] ((y :: z :: zs) ++ [joinRel a b]) =
          y ++ '/' :: List.intercalate ['/'] ((z :: zs) ++ [joinRel a b]) :=
        intercalate_slash_cons y z (zs ++ [joinRel a b])
      have e2 : List.intercalate ['/'] ((y :: z :: zs) ++ [a, b]) =
          y ++ '/' :: List.intercalate ['/'] ((z :: zs) ++ [a, b]) :=
        intercalate_slash_cons y z (zs ++ [a, b])
      rw [e1, e2, ih]

/-- C9: for every successfully rendered source element, its `file` attribute
is the path made of one `..` segment per normal component of the package's
category, then the package identifier, then the source's version-relative
path, all joined with `/`; and a `..` component in the category is a fatal
error carrying the offending category path. -/
theorem output_path_spec :
    (∀ (repo : Repository) (pkg : Package) (ver : Version) (src : Source) el,
      Source.element src repo pkg ver = .ok el →
      pkg.identifier ≠ [] → src.relpathFromVersion ≠ [] →
      el.file = List.intercalate ['/']
        (List.replicate (normalComponentCount pkg.category) "..".data
          ++ [pkg.identifier, src.relpathFromVersion]))
    ∧ (∀ (pkg : Package) (src : Source),
      PathComponent.parentDir ∈ categoryComponents pkg.category →
      src.output_relpath_from_category pkg =
        .error (.categoryEscapesRepositoryRoot pkg.category)) := by
  constructor
  · intro repo pkg ver src el h hid hrel
    unfold Source.element at h
    cases hu : src.url repo with
    | error e =>
      rw [hu] at h
      simp only [bind, Except.bind] at h
      exact Except.noConfusion h
    | ok url =>
      rw [hu] at h
      simp only [bind, Except.bind] at h
      cases hf : src.output_relpath_from_category pkg with
      | error e =>
        rw [hf] at h
        exact Except.noConfusion h
      | ok file =>
        rw [hf] at h
        cases hs : src.sections pkg ver with
        | error e =>
          rw [hs] at h
          exact Except.noConfusion h
        | ok main =>
          rw [hs] at h
          injection h with h2
          have hfile : el.file = file := by rw [← h2]
          unfold Source.output_relpath_from_category at hf
          by_cases hpd :
              (categoryComponents pkg.category).any (fun c => c = .parentDir) = true
          · rw [if_pos hpd] at hf
            exact Except.noConfusion hf
          · rw [if_neg hpd] at hf
            injection hf with hf
            rw [hfile, ← hf]
            unfold Source.output_relpath
            have hJR : joinRel pkg.identifier src.relpathFromVersion ≠ [] := by
              unfold joinRel
              rw [if_neg hid, if_neg hrel]
              simp
            rw [joinRel_intercalate _ _ replicate_dotdot_ne_nil hJR,
              intercalate_last_split _ _ _ hid hrel]
            rfl
  · intro pkg src h
    unfold Source.output_relpath_from_category
    rw [if_pos (List.any_eq_true.mpr ⟨.parentDir, h, by simp⟩)]

/-- Concrete instantiation of `output_path_spec`, discharging each
hypothesis: the sample matching source's file attribute under category
`cat`, and a category containing `..`. -/
theorem output_path_spec_witness :
    ({ url := "https://host/p/0.0.1/scripts/foo.lua".data,
       file := "../p/scripts/foo.lua".data,
       main := [ActionListSection.mainSection] } : SourceElem).file =
      List.intercalate ['/']
        (List.replicate (normalComponentCount wPkgScript.category) "..".data
          ++ [wPkgScript.identifier, wSrcMatch.relpathFromVersion])
    ∧ Source.output_relpath_from_category wSrcMatch
        { wPkgScript with category := "a/../b".data } =
      .error (.categoryEscapesRepositoryRoot "a/../b".data) :=
  ⟨output_path_spec.1 wRepo wPkgScript wVer wSrcMatch _ (by decide) (by decide) (by decide),
    output_path_spec.2 { wPkgScript with category := "a/../b".data } wSrcMatch (by decide)⟩

end Reapack
